import Mathlib

/-!
Verification of `src/pgn_translator.py` (simple-pgn-translator).

Strings are embedded as `List Char` (Python `str` values are immutable
character sequences).  The network is embedded as an explicit outcome value
fed to `translate_text`, and `translate_pgn`'s per-span calls to
`translate_text` are embedded as an oracle `tr : Nat → List Char →
Option (List Char)` giving, for the span with a given index in the located
span list, the value that `translate_text` returned for that call
(`none` embeds Python `None`).
-/

/-- Embedding of `PGNTranslator.extract_comments`: the scan of
`re.finditer(r'\x7b([^\x7d]+)\x7d', pgn_content)`.  The state is `none` when no
open brace is pending, and `some (start, acc)` when a brace was opened at
offset `start` and `acc` holds the (reversed) body characters read so far.
A match needs a non-empty body, exactly as the regex's `+` does. -/
def extractAux : List Char → Nat → Option (Nat × List Char) → List (List Char × Nat × Nat)
  | [], _, _ => []
  | c :: rest, pos, none =>
    if c = '{' then extractAux rest (pos + 1) (some (pos, []))
    else extractAux rest (pos + 1) none
  | c :: rest, pos, some st =>
    if c = '}' then
      if st.2 = [] then extractAux rest (pos + 1) none
      else (st.2.reverse, st.1, pos + 1) :: extractAux rest (pos + 1) none
    else extractAux rest (pos + 1) (some (st.1, c :: st.2))

/-- Embedding of `PGNTranslator.extract_comments(pgn_content)`: the list of
`(comment_text, start_pos, end_pos)` triples. -/
def extract_comments (s : List Char) : List (List Char × Nat × Nat) :=
  extractAux s 0 none

/-- Embedding of the splice
`translated_content[:start] + "\x7b" + t + "\x7d" + translated_content[end:]`. -/
def splice (content : List Char) (a b : Nat) (r : List Char) : List Char :=
  content.take a ++ '{' :: (r ++ '}' :: content.drop b)

/-- Embedding of one iteration body of the loop in `translate_pgn`:
`if translated_text and translated_text != comment_text:` splice, else keep.
(Python truthiness: `None` and the empty string are falsy.) -/
def applySpan (tr : Nat → List Char → Option (List Char)) (idx : Nat)
    (x : List Char × Nat × Nat) (content : List Char) : List Char :=
  match tr idx x.1 with
  | none => content
  | some r => if r ≠ [] ∧ r ≠ x.1 then splice content x.2.1 x.2.2 r else content

/-- Embedding of `for i, (comment_text, start_pos, end_pos) in
enumerate(reversed(comments))`: the list is processed back to front, so the
recursive call handles the suffix (later spans) first and `applySpan` for the
head span runs last.  The second component records, in call order, the texts
passed to `translate_text` (one call per iteration, unconditionally). -/
def transLoop (tr : Nat → List Char → Option (List Char)) :
    Nat → List (List Char × Nat × Nat) → List Char → List Char × List (List Char)
  | _, [], content => (content, [])
  | idx, x :: rest, content =>
    let p := transLoop tr (idx + 1) rest content
    (applySpan tr idx x p.1, p.2 ++ [x.1])

/-- Embedding of `PGNTranslator.translate_pgn(pgn_content, ...)`: extract the
comments, return the content unchanged when there are none, otherwise run the
reversed splice loop. -/
def translate_pgn (tr : Nat → List Char → Option (List Char)) (s : List Char) : List Char :=
  let comments := extract_comments s
  if comments = [] then s else (transLoop tr 0 comments s).1

/-- The trace of texts sent to `translate_text` during `translate_pgn`
(empty when the early `if not comments` return fires). -/
def translate_pgn_requests (tr : Nat → List Char → Option (List Char)) (s : List Char) :
    List (List Char) :=
  let comments := extract_comments s
  if comments = [] then [] else (transLoop tr 0 comments s).2

/-- The text that `translate_pgn` effectively emits between the braces of a
span whose body is `t`, given the oracle's answer for that call: the
translation when it is a non-`None`, non-empty string different from `t`,
and the original body otherwise. -/
def effText (tr : Nat → List Char → Option (List Char)) (idx : Nat) (t : List Char) : List Char :=
  match tr idx t with
  | none => t
  | some r => if r ≠ [] ∧ r ≠ t then r else t

/-- Specification-side reconstruction of an output text: starting at cursor
`c`, copy the characters of `s` outside the spans verbatim and re-emit each
span between the same brace markers with its body replaced by `g idx body`. -/
def renderWith (g : Nat → List Char → List Char) (s : List Char) :
    Nat → Nat → List (List Char × Nat × Nat) → List Char
  | c, _, [] => s.drop c
  | c, idx, x :: rest =>
    (s.drop c).take (x.2.1 - c) ++
      '{' :: (g idx x.1 ++ '}' :: renderWith g s x.2.2 (idx + 1) rest)

/-- A hypothetical variant of the splice loop that also performs the splice
when the translation equals the original comment (it only skips the splice for
`None` and for the empty string, which Python treats as falsy). -/
def applySpanNS (tr : Nat → List Char → Option (List Char)) (idx : Nat)
    (x : List Char × Nat × Nat) (content : List Char) : List Char :=
  match tr idx x.1 with
  | none => content
  | some r => if r ≠ [] then splice content x.2.1 x.2.2 r else content

/-- The splice loop of `translate_pgn` with `applySpanNS` in place of
`applySpan`. -/
def transLoopNS (tr : Nat → List Char → Option (List Char)) :
    Nat → List (List Char × Nat × Nat) → List Char → List Char
  | _, [], content => content
  | idx, x :: rest, content => applySpanNS tr idx x (transLoopNS tr (idx + 1) rest content)

/-- The variant of `translate_pgn` that never skips the splice for a no-op
translation. -/
def translate_pgn_noskip (tr : Nat → List Char → Option (List Char)) (s : List Char) : List Char :=
  let comments := extract_comments s
  if comments = [] then s else transLoopNS tr 0 comments s

/-! Embedding of `PGNTranslator.translate_text`.  The network world is an
explicit outcome: either `requests.post` raises a `requests.RequestException`,
or it yields a response with a status code and a body.  The body is what
`response.json()` gives: `none` when it raises a JSON decoding error, or the
parsed value, of which only the `"translatedText"` entry matters. -/

/-- The possible values of the `"translatedText"` entry of a parsed JSON
object body: JSON `null`, or a string. -/
inductive JsonField where
  | jnull : JsonField
  | jstr : List Char → JsonField
deriving DecidableEq

/-- A parsed JSON response body: an object, carrying the value of its
`"translatedText"` entry (`none` when the key is absent), or a JSON value that
is not an object (a list, number, ...), on which `.get` raises
`AttributeError`. -/
inductive ParsedBody where
  | jdict : Option JsonField → ParsedBody
  | jother : ParsedBody
deriving DecidableEq

/-- An HTTP response: status code plus the result of `response.json()`
(`none` embeds a JSON decoding error). -/
structure HttpResp where
  status : Nat
  body : Option ParsedBody
deriving DecidableEq

/-- Outcome of the `requests.post` call inside `translate_text`. -/
inductive NetOutcome where
  | resp : HttpResp → NetOutcome
  | netError : NetOutcome
deriving DecidableEq

/-- Result of running a Python function returning `Optional[str]`: a returned
value (possibly `None`), or an uncaught exception propagating to the caller. -/
inductive PyOut where
  | val : Option (List Char) → PyOut
  | raised : PyOut
deriving DecidableEq

/-- Embedding of `PGNTranslator.translate_text(text, source_lang, target_lang)`
under network outcome `net`.  On status 200 it returns
`result.get("translatedText", text)` — which is `None` when the entry holds
JSON `null`, and raises `AttributeError` (uncaught) when the parsed body is
not an object; a non-200 status, a connection error, and a JSON decoding
error each return the original `text`. -/
def translate_text (net : NetOutcome) (text _source_lang _target_lang : List Char) : PyOut :=
  match net with
  | NetOutcome.netError => PyOut.val (some text)
  | NetOutcome.resp r =>
    if r.status = 200 then
      match r.body with
      | none => PyOut.val (some text)
      | some (ParsedBody.jdict none) => PyOut.val (some text)
      | some (ParsedBody.jdict (some JsonField.jnull)) => PyOut.val none
      | some (ParsedBody.jdict (some (JsonField.jstr s))) => PyOut.val (some s)
      | some ParsedBody.jother => PyOut.raised
    else PyOut.val (some text)

/-- The failure outcomes that `translate_text`'s spec contract enumerates:
non-success HTTP status, connection/timeout error, unparseable response
body. -/
def isFailure : NetOutcome → Prop
  | NetOutcome.netError => True
  | NetOutcome.resp r => r.status ≠ 200 ∨ r.body = none

/-! Exception-aware embedding of the `translate_pgn` loop.  A call to
`translate_text` can raise an uncaught `AttributeError` (a 200 response whose
body parses to a non-object); such an exception propagates out of the loop,
aborting `translate_pgn` before the remaining spans' requests are issued.
Here the per-call oracle yields a full `PyOut` (returned value or raise). -/

/-- The splice loop of `translate_pgn` under a `PyOut`-valued oracle.  The
first component is `some content` on normal completion and `none` when some
call raised (the exception propagates, so the head span — processed last,
since iteration is over `reversed(comments)` — never runs after a raise in
the suffix).  The second component is the trace of texts actually passed to
`translate_text`: the raising call itself is included, calls after the raise
never happen. -/
def transLoopE (tr : Nat → List Char → PyOut) :
    Nat → List (List Char × Nat × Nat) → List Char →
      Option (List Char) × List (List Char)
  | _, [], content => (some content, [])
  | idx, x :: rest, content =>
    match transLoopE tr (idx + 1) rest content with
    | (none, req) => (none, req)
    | (some cur, req) =>
      match tr idx x.1 with
      | PyOut.raised => (none, req ++ [x.1])
      | PyOut.val none => (some cur, req ++ [x.1])
      | PyOut.val (some r) =>
        (if r ≠ [] ∧ r ≠ x.1 then some (splice cur x.2.1 x.2.2 r) else some cur,
         req ++ [x.1])

/-- `translate_pgn` when calls may raise: `some` output on normal completion,
`none` when an uncaught exception propagates out of the loop. -/
def translate_pgnE (tr : Nat → List Char → PyOut) (s : List Char) :
    Option (List Char) :=
  let comments := extract_comments s
  if comments = [] then some s else (transLoopE tr 0 comments s).1

/-- The trace of texts sent to `translate_text` during a (possibly aborted)
run of `translate_pgn`. -/
def translate_pgnE_requests (tr : Nat → List Char → PyOut) (s : List Char) :
    List (List Char) :=
  let comments := extract_comments s
  if comments = [] then [] else (transLoopE tr 0 comments s).2

/-! Embedding of offline-mode detection. -/

/-- Embedding of Python `url.rstrip('/')` as applied to the configured API
URL in `PGNTranslator.__init__`. -/
def rstripSlash (url : List Char) : List Char :=
  (url.reverse.dropWhile (fun c => c = '/')).reverse

/-- Boolean test that `needle` is a prefix of `hay`. -/
def startsWithL : List Char → List Char → Bool
  | [], _ => true
  | _ :: _, [] => false
  | a :: as, b :: bs => if a = b then startsWithL as bs else false

/-- Boolean test that `needle` occurs as a contiguous substring of `hay`
(the semantics of Python `needle in hay` on strings). -/
def containsSub (needle : List Char) : List Char → Bool
  | [] => startsWithL needle []
  | c :: rest => startsWithL needle (c :: rest) || containsSub needle rest

/-- The character list `"localhost"`. -/
def lhostStr : List Char := ['l', 'o', 'c', 'a', 'l', 'h', 'o', 's', 't']

/-- The character list `"127.0.0.1"`. -/
def lipStr : List Char := ['1', '2', '7', '.', '0', '.', '0', '.', '1']

/-- Embedding of `PGNTranslator._is_offline_mode`:
`'localhost' in self.api_url or '127.0.0.1' in self.api_url`. -/
def is_offline_mode (api_url : List Char) : Bool :=
  containsSub lhostStr api_url || containsSub lipStr api_url

/-- The translator's offline flag for a configured URL `url`: the stored
`self.api_url` is `url.rstrip('/')`, on which `_is_offline_mode` runs. -/
def translatorOffline (url : List Char) : Bool :=
  is_offline_mode (rstripSlash url)

/-- The suffix of the URL after the first `"://"`, when one occurs. -/
def findScheme : List Char → Option (List Char)
  | [] => none
  | c :: rest =>
    if c = ':' ∧ rest.take 2 = ['/', '/'] then some (rest.drop 2) else findScheme rest

/-- Modelled from the spec: the URL's host — the code never extracts a host,
so this follows the glossary's words ("URL host"): the part after the scheme
separator `"://"` (the whole URL when there is none), up to the first `'/'`
or `':'`. -/
def urlHost (url : List Char) : List Char :=
  ((findScheme url).getD url).takeWhile (fun c => ¬(c = '/' ∨ c = ':'))

/-- Modelled from the spec: a loopback host, per the glossary's "URL host
matching a loopback address" and the code's two alternatives. -/
def isLoopbackHost (h : List Char) : Prop := h = lhostStr ∨ h = lipStr

/-- Prop-level substring occurrence. -/
def SubOf (needle hay : List Char) : Prop := ∃ p q, hay = p ++ needle ++ q

/-! Structural invariants of `extract_comments`. -/

/-- Validity of one located span `(t, a, b)` in text `s`: the offsets point
back into `s` at exactly `'\x7b' + t + '\x7d'`, the body is non-empty and
brace-free. -/
def ValidSpan (s : List Char) (x : List Char × Nat × Nat) : Prop :=
  x.2.2 = x.2.1 + x.1.length + 2 ∧ x.2.2 ≤ s.length ∧
    (s.drop x.2.1).take (x.2.2 - x.2.1) = '{' :: (x.1 ++ ['}']) ∧
    x.1 ≠ [] ∧ '}' ∉ x.1

/-- All spans in the list are valid in `s`, start at or after cursor `c`, and
are in increasing disjoint order (each span ends at or before the next one
starts). -/
def SpansOK (s : List Char) : Nat → List (List Char × Nat × Nat) → Prop
  | _, [] => True
  | c, x :: rest => c ≤ x.2.1 ∧ ValidSpan s x ∧ SpansOK s x.2.2 rest

/-- The scanner-state invariant: in state `some (start, acc)` at position
`pos`, `s` has an open brace at `start` followed by the (brace-free) reversed
accumulator, reaching exactly up to `pos`. -/
def StInv (s : List Char) (pos : Nat) : Option (Nat × List Char) → Prop
  | none => True
  | some st => st.1 + 1 + st.2.length = pos ∧
      s.take pos = s.take st.1 ++ '{' :: st.2.reverse ∧ '}' ∉ st.2

/-- The lower bound on the start offset of any span the scanner can still
emit from a given state. -/
def stLow (pos : Nat) : Option (Nat × List Char) → Nat
  | none => pos
  | some st => st.1

theorem SpansOK_mono (s : List Char) :
    ∀ (sp : List (List Char × Nat × Nat)) (c c' : Nat),
      c ≤ c' → SpansOK s c' sp → SpansOK s c sp := by
  intro sp c c' hle h
  cases sp with
  | nil => trivial
  | cons x rest => exact ⟨le_trans hle h.1, h.2.1, h.2.2⟩

theorem extractAux_ok (s : List Char) :
    ∀ (l : List Char) (pos : Nat) (st : Option (Nat × List Char)),
      l = s.drop pos → StInv s pos st →
      SpansOK s (stLow pos st) (extractAux l pos st) := by
  intro l
  induction l with
  | nil =>
    intro pos st _ _
    cases st with
    | none => trivial
    | some st => trivial
  | cons c rest ih =>
    intro pos st hl hst
    have hrest : rest = s.drop (pos + 1) := by
      have h1 : s.drop (pos + 1) = (s.drop pos).drop 1 := by
        rw [List.drop_drop]
      rw [h1, ← hl]
      rfl
    have hlen : pos < s.length := by
      have h2 := congrArg List.length hl
      simp only [List.length_cons, List.length_drop] at h2
      omega
    have htake1 : s.take (pos + 1) = s.take pos ++ [c] := by
      rw [List.take_add s pos 1, ← hl]
      rfl
    cases st with
    | none =>
      by_cases hc : c = '{'
      · have hinv : StInv s (pos + 1) (some (pos, [])) := by
          refine ⟨by simp, ?_, by simp⟩
          rw [htake1, hc]
          rfl
        have h3 := ih (pos + 1) (some (pos, [])) hrest hinv
        simpa [extractAux, hc, stLow] using h3
      · have h3 : SpansOK s (pos + 1) (extractAux rest (pos + 1) none) :=
          ih (pos + 1) none hrest trivial
        have h4 : SpansOK s pos (extractAux rest (pos + 1) none) :=
          SpansOK_mono s _ pos (pos + 1) (by omega) h3
        simpa [extractAux, hc, stLow] using h4
    | some st =>
      obtain ⟨hpos, htk, hnm⟩ := hst
      by_cases hc : c = '}'
      · by_cases hacc : st.2 = []
        · have h3 : SpansOK s (pos + 1) (extractAux rest (pos + 1) none) :=
            ih (pos + 1) none hrest trivial
          have h4 : SpansOK s st.1 (extractAux rest (pos + 1) none) :=
            SpansOK_mono s _ st.1 (pos + 1) (by omega) h3
          simpa [extractAux, hc, hacc, stLow] using h4
        · have h3 : SpansOK s (pos + 1) (extractAux rest (pos + 1) none) :=
            ih (pos + 1) none hrest trivial
          have hvalid : ValidSpan s (st.2.reverse, st.1, pos + 1) := by
            refine ⟨?_, ?_, ?_, ?_, ?_⟩
            · show pos + 1 = st.1 + st.2.reverse.length + 2
              simp only [List.length_reverse]
              omega
            · show pos + 1 ≤ s.length
              omega
            · show (s.drop st.1).take (pos + 1 - st.1) = '{' :: (st.2.reverse ++ ['}'])
              have hfull : s.take (pos + 1) =
                  s.take st.1 ++ ('{' :: (st.2.reverse ++ ['}'])) := by
                rw [htake1, htk, hc]
                simp
              have hdt : (s.take (pos + 1)).drop st.1 =
                  (s.drop st.1).take (pos + 1 - st.1) := by
                rw [List.drop_take]
              have hlen2 : (s.take st.1).length = st.1 := by
                simp only [List.length_take]
                omega
              have hleft : (s.take (pos + 1)).drop st.1 =
                  '{' :: (st.2.reverse ++ ['}']) := by
                rw [hfull, List.drop_left' hlen2]
              rw [← hdt, hleft]
            · show st.2.reverse ≠ []
              simpa using hacc
            · show '}' ∉ st.2.reverse
              simpa using hnm
          have hgoal : SpansOK s st.1
              ((st.2.reverse, st.1, pos + 1) :: extractAux rest (pos + 1) none) :=
            ⟨le_refl _, hvalid, h3⟩
          simpa [extractAux, hc, hacc, stLow] using hgoal
      · have hinv : StInv s (pos + 1) (some (st.1, c :: st.2)) := by
          refine ⟨?_, ?_, ?_⟩
          · show st.1 + 1 + (c :: st.2).length = pos + 1
            simp only [List.length_cons]
            omega
          · rw [htake1, htk]
            simp
          · simp only [List.mem_cons, not_or]
            exact ⟨fun h => hc h.symm, hnm⟩
        have h3 := ih (pos + 1) (some (st.1, c :: st.2)) hrest hinv
        simpa [extractAux, hc, stLow] using h3

theorem extract_comments_ok (s : List Char) : SpansOK s 0 (extract_comments s) :=
  extractAux_ok s s 0 none (by simp) trivial

/-! From `SpansOK` to the claims' shapes. -/

theorem spansOK_valid (s : List Char) :
    ∀ (sp : List (List Char × Nat × Nat)) (c : Nat), SpansOK s c sp →
      ∀ x, x ∈ sp → ValidSpan s x := by
  intro sp
  induction sp with
  | nil => intro c _ x hx; cases hx
  | cons y rest ih =>
    intro c h x hx
    cases hx with
    | head => exact h.2.1
    | tail _ hx => exact ih y.2.2 h.2.2 x hx

theorem spansOK_chain (s : List Char) :
    ∀ (sp : List (List Char × Nat × Nat)) (c : Nat), SpansOK s c sp →
      List.Chain' (fun x y : List Char × Nat × Nat => x.2.2 ≤ y.2.1) sp := by
  intro sp
  induction sp with
  | nil => intro c _; exact List.chain'_nil
  | cons x rest ih =>
    intro c h
    cases rest with
    | nil => simp
    | cons y rest2 =>
      refine List.Chain'.cons ?_ (ih x.2.2 h.2.2)
      exact h.2.2.1

/-! The back-to-front splice loop computes the front-to-back rendering. -/

theorem take_glue (s : List Char) (c a : Nat) (hca : c ≤ a) (z : List Char) :
    s.take c ++ ((s.drop c).take (a - c) ++ z) = s.take a ++ z := by
  rw [← List.append_assoc, ← List.take_add]
  congr 2
  omega

theorem take_to_end (s : List Char) (t : List Char) (a b : Nat)
    (hb : b = a + t.length + 2)
    (hslice : (s.drop a).take (b - a) = '{' :: (t ++ ['}'])) :
    s.take b = s.take a ++ '{' :: (t ++ ['}']) := by
  have h1 : b = a + (b - a) := by omega
  rw [h1, List.take_add, hslice]

theorem splice_canonical (s R e : List Char) (a b : Nat) (hab : a ≤ b)
    (hbs : b ≤ s.length) :
    splice (s.take b ++ R) a b e = s.take a ++ '{' :: (e ++ '}' :: R) := by
  have hlb : (s.take b).length = b := by
    simp only [List.length_take]
    omega
  have htk : (s.take b ++ R).take a = s.take a := by
    rw [List.take_append_of_le_length (by omega), List.take_take]
    congr 1
    omega
  have hdp : (s.take b ++ R).drop b = R := by
    rw [List.drop_left' hlb]
  rw [splice, htk, hdp]

theorem transLoop_render (s : List Char) (tr : Nat → List Char → Option (List Char)) :
    ∀ (sp : List (List Char × Nat × Nat)) (idx c : Nat), SpansOK s c sp →
      (transLoop tr idx sp s).1 = s.take c ++ renderWith (effText tr) s c idx sp := by
  intro sp
  induction sp with
  | nil =>
    intro idx c _
    simp [transLoop, renderWith]
  | cons x rest ih =>
    intro idx c h
    obtain ⟨hca, hval, hrest⟩ := h
    obtain ⟨hb, hbs, hslice, -, -⟩ := hval
    have hab : x.2.1 ≤ x.2.2 := by omega
    have hp := ih (idx + 1) x.2.2 hrest
    have hrw : s.take c ++ renderWith (effText tr) s c idx (x :: rest) =
        s.take x.2.1 ++
          '{' :: (effText tr idx x.1 ++ '}' :: renderWith (effText tr) s x.2.2 (idx + 1) rest) := by
      rw [renderWith, take_glue s c x.2.1 hca]
    have hkeep : s.take x.2.2 ++ renderWith (effText tr) s x.2.2 (idx + 1) rest =
        s.take x.2.1 ++
          '{' :: (x.1 ++ '}' :: renderWith (effText tr) s x.2.2 (idx + 1) rest) := by
      rw [take_to_end s x.1 x.2.1 x.2.2 hb hslice]
      simp
    show applySpan tr idx x (transLoop tr (idx + 1) rest s).1 = _
    rw [hp, hrw]
    cases htr : tr idx x.1 with
    | none =>
      simp only [applySpan, htr]
      rw [hkeep]
      have he : effText tr idx x.1 = x.1 := by
        rw [effText, htr]
      rw [he]
    | some r =>
      simp only [applySpan, htr]
      by_cases hcond : r ≠ [] ∧ r ≠ x.1
      · have he : effText tr idx x.1 = r := by
          rw [effText, htr]
          simp [hcond]
        rw [if_pos hcond, he, splice_canonical s _ r x.2.1 x.2.2 hab hbs]
      · have he : effText tr idx x.1 = x.1 := by
          rw [effText, htr]
          simp only [if_neg hcond]
        rw [if_neg hcond, hkeep, he]

theorem transLoopNS_render (s : List Char) (tr : Nat → List Char → Option (List Char)) :
    ∀ (sp : List (List Char × Nat × Nat)) (idx c : Nat), SpansOK s c sp →
      transLoopNS tr idx sp s = s.take c ++ renderWith (effText tr) s c idx sp := by
  intro sp
  induction sp with
  | nil =>
    intro idx c _
    simp [transLoopNS, renderWith]
  | cons x rest ih =>
    intro idx c h
    obtain ⟨hca, hval, hrest⟩ := h
    obtain ⟨hb, hbs, hslice, -, -⟩ := hval
    have hab : x.2.1 ≤ x.2.2 := by omega
    have hp := ih (idx + 1) x.2.2 hrest
    have hrw : s.take c ++ renderWith (effText tr) s c idx (x :: rest) =
        s.take x.2.1 ++
          '{' :: (effText tr idx x.1 ++ '}' :: renderWith (effText tr) s x.2.2 (idx + 1) rest) := by
      rw [renderWith, take_glue s c x.2.1 hca]
    have hkeep : s.take x.2.2 ++ renderWith (effText tr) s x.2.2 (idx + 1) rest =
        s.take x.2.1 ++
          '{' :: (x.1 ++ '}' :: renderWith (effText tr) s x.2.2 (idx + 1) rest) := by
      rw [take_to_end s x.1 x.2.1 x.2.2 hb hslice]
      simp
    show applySpanNS tr idx x (transLoopNS tr (idx + 1) rest s) = _
    rw [hp, hrw]
    cases htr : tr idx x.1 with
    | none =>
      simp only [applySpanNS, htr]
      rw [hkeep]
      have he : effText tr idx x.1 = x.1 := by
        rw [effText, htr]
      rw [he]
    | some r =>
      simp only [applySpanNS, htr]
      by_cases hne : r = []
      · have he : effText tr idx x.1 = x.1 := by
          rw [effText, htr]
          simp [hne]
        rw [if_neg (by simpa using hne), hkeep, he]
      · by_cases heq : r = x.1
        · have he : effText tr idx x.1 = x.1 := by
            rw [effText, htr]
            simp [heq]
          rw [if_pos (by simpa using hne),
            splice_canonical s _ r x.2.1 x.2.2 hab hbs, he, heq]
        · have he : effText tr idx x.1 = r := by
            rw [effText, htr]
            simp [hne, heq]
          rw [if_pos (by simpa using hne), he,
            splice_canonical s _ r x.2.1 x.2.2 hab hbs]

theorem translate_pgn_render (tr : Nat → List Char → Option (List Char)) (s : List Char) :
    translate_pgn tr s = renderWith (effText tr) s 0 0 (extract_comments s) := by
  unfold translate_pgn
  by_cases h : extract_comments s = []
  · simp [h, renderWith]
  · simp only [h, if_neg, ite_false]
    have := transLoop_render s tr (extract_comments s) 0 0 (extract_comments_ok s)
    simpa using this

theorem translate_pgn_noskip_render (tr : Nat → List Char → Option (List Char)) (s : List Char) :
    translate_pgn_noskip tr s = renderWith (effText tr) s 0 0 (extract_comments s) := by
  unfold translate_pgn_noskip
  by_cases h : extract_comments s = []
  · simp [h, renderWith]
  · simp only [h, if_neg, ite_false]
    have := transLoopNS_render s tr (extract_comments s) 0 0 (extract_comments_ok s)
    simpa using this

theorem renderWith_congr (g g' : Nat → List Char → List Char) (s : List Char)
    (hg : ∀ i t, g i t = g' i t) :
    ∀ (sp : List (List Char × Nat × Nat)) (c idx : Nat),
      renderWith g s c idx sp = renderWith g' s c idx sp := by
  intro sp
  induction sp with
  | nil => intro c idx; rfl
  | cons x rest ih =>
    intro c idx
    rw [renderWith, renderWith, hg, ih]

theorem renderWith_orig (s : List Char) :
    ∀ (sp : List (List Char × Nat × Nat)) (c idx : Nat), SpansOK s c sp →
      renderWith (fun _ t => t) s c idx sp = s.drop c := by
  intro sp
  induction sp with
  | nil => intro c idx _; rfl
  | cons x rest ih =>
    intro c idx h
    obtain ⟨hca, hval, hrest⟩ := h
    obtain ⟨hb, hbs, hslice, -, -⟩ := hval
    rw [renderWith, ih x.2.2 (idx + 1) hrest]
    have h2 : (s.drop c).drop (x.2.1 - c) = s.drop x.2.1 := by
      rw [List.drop_drop]
      congr 1
      omega
    have h3 : s.drop x.2.1 = '{' :: (x.1 ++ ['}']) ++ s.drop x.2.2 := by
      have h4 : s.drop x.2.1 =
          (s.drop x.2.1).take (x.2.2 - x.2.1) ++ (s.drop x.2.1).drop (x.2.2 - x.2.1) :=
        (List.take_append_drop _ _).symm
      have h5 : (s.drop x.2.1).drop (x.2.2 - x.2.1) = s.drop x.2.2 := by
        rw [List.drop_drop]
        congr 1
        omega
      rw [h4, h5, hslice]
    have h7 : ('{' : Char) :: (x.1 ++ '}' :: s.drop x.2.2) =
        '{' :: (x.1 ++ ['}']) ++ s.drop x.2.2 := by
      simp
    rw [h7, ← h3, ← h2, List.take_append_drop]

theorem transLoop_requests (tr : Nat → List Char → Option (List Char)) (s : List Char) :
    ∀ (sp : List (List Char × Nat × Nat)) (idx : Nat),
      (transLoop tr idx sp s).2 = sp.reverse.map (fun x => x.1) := by
  intro sp
  induction sp with
  | nil => intro idx; rfl
  | cons x rest ih =>
    intro idx
    show (transLoop tr (idx + 1) rest s).2 ++ [x.1] = _
    rw [ih (idx + 1)]
    simp

theorem transLoopE_no_raise (tr : Nat → List Char → PyOut)
    (hnr : ∀ i t, tr i t ≠ PyOut.raised) (s : List Char) :
    ∀ (sp : List (List Char × Nat × Nat)) (idx : Nat),
      (∃ cur, (transLoopE tr idx sp s).1 = some cur) ∧
        (transLoopE tr idx sp s).2 = sp.reverse.map (fun x => x.1) := by
  intro sp
  induction sp with
  | nil => intro idx; exact ⟨⟨s, rfl⟩, rfl⟩
  | cons x rest ih =>
    intro idx
    obtain ⟨⟨cur, hcur⟩, htrace⟩ := ih (idx + 1)
    have hpair : transLoopE tr (idx + 1) rest s =
        (some cur, rest.reverse.map (fun x => x.1)) :=
      Prod.ext hcur htrace
    cases hv : tr idx x.1 with
    | raised => exact absurd hv (hnr idx x.1)
    | val o =>
      cases o with
      | none =>
        refine ⟨⟨cur, ?_⟩, ?_⟩
        · simp [transLoopE, hpair, hv]
        · simp [transLoopE, hpair, hv]
      | some r =>
        by_cases hc : r ≠ [] ∧ r ≠ x.1
        · refine ⟨⟨splice cur x.2.1 x.2.2 r, ?_⟩, ?_⟩
          · simp [transLoopE, hpair, hv, hc]
          · simp [transLoopE, hpair, hv]
        · refine ⟨⟨cur, ?_⟩, ?_⟩
          · simp [transLoopE, hpair, hv, hc]
          · simp [transLoopE, hpair, hv]

theorem transLoopE_requests_le (tr : Nat → List Char → PyOut) (s : List Char) :
    ∀ (sp : List (List Char × Nat × Nat)) (idx : Nat),
      (transLoopE tr idx sp s).2.length ≤ sp.length := by
  intro sp
  induction sp with
  | nil => intro idx; exact Nat.le_refl 0
  | cons x rest ih =>
    intro idx
    cases hp : transLoopE tr (idx + 1) rest s with
    | mk o req =>
      have h : req.length ≤ rest.length := by
        have h0 := ih (idx + 1)
        rw [hp] at h0
        exact h0
      cases o with
      | none =>
        have hred : (transLoopE tr idx (x :: rest) s).2 = req := by
          simp [transLoopE, hp]
        rw [hred, List.length_cons]
        omega
      | some cur =>
        cases hv : tr idx x.1 with
        | raised =>
          have hred : (transLoopE tr idx (x :: rest) s).2 = req ++ [x.1] := by
            simp [transLoopE, hp, hv]
          rw [hred, List.length_cons, List.length_append]
          simp only [List.length_cons, List.length_nil]
          omega
        | val o2 =>
          cases o2 with
          | none =>
            have hred : (transLoopE tr idx (x :: rest) s).2 = req ++ [x.1] := by
              simp [transLoopE, hp, hv]
            rw [hred, List.length_cons, List.length_append]
            simp only [List.length_cons, List.length_nil]
            omega
          | some r =>
            have hred : (transLoopE tr idx (x :: rest) s).2 = req ++ [x.1] := by
              simp [transLoopE, hp, hv]
            rw [hred, List.length_cons, List.length_append]
            simp only [List.length_cons, List.length_nil]
            omega

/-! Substring characterisation and host/loopback facts for offline mode. -/

theorem startsWithL_iff : ∀ (n h : List Char), startsWithL n h = true ↔ ∃ q, h = n ++ q := by
  intro n
  induction n with
  | nil =>
    intro h
    simp [startsWithL]
  | cons a as ih =>
    intro h
    cases h with
    | nil =>
      simp [startsWithL]
    | cons b bs =>
      simp only [startsWithL]
      constructor
      · intro hs
        by_cases hab : a = b
        · subst hab
          rw [if_pos rfl] at hs
          obtain ⟨q, hq⟩ := (ih bs).mp hs
          exact ⟨q, by rw [hq]; rfl⟩
        · rw [if_neg hab] at hs
          cases hs
      · rintro ⟨q, hq⟩
        rw [List.cons_append] at hq
        injection hq with h1 h2
        subst h1
        rw [if_pos rfl]
        exact (ih bs).mpr ⟨q, h2⟩

theorem containsSub_iff : ∀ (n h : List Char), containsSub n h = true ↔ SubOf n h := by
  intro n h
  induction h with
  | nil =>
    rw [containsSub, startsWithL_iff]
    constructor
    · rintro ⟨q, hq⟩
      exact ⟨[], q, by simpa using hq⟩
    · rintro ⟨p, q, hpq⟩
      have hp : p = [] := by
        cases p with
        | nil => rfl
        | cons d p2 => cases hpq
      subst hp
      exact ⟨q, by simpa using hpq⟩
  | cons c rest ih =>
    rw [containsSub, Bool.or_eq_true, startsWithL_iff, ih]
    constructor
    · rintro (⟨q, hq⟩ | ⟨p, q, hpq⟩)
      · exact ⟨[], q, by simpa using hq⟩
      · exact ⟨c :: p, q, by rw [hpq]; rfl⟩
    · rintro ⟨p, q, hpq⟩
      cases p with
      | nil =>
        exact Or.inl ⟨q, by simpa using hpq⟩
      | cons d p2 =>
        rw [List.cons_append, List.cons_append] at hpq
        injection hpq with h1 h2
        exact Or.inr ⟨p2, q, h2⟩

theorem takeWhile_sub (p : Char → Bool) (l : List Char) :
    ∃ t, l = l.takeWhile p ++ t :=
  ⟨l.dropWhile p, (List.takeWhile_append_dropWhile p l).symm⟩

theorem findScheme_suffix : ∀ (url rest : List Char),
    findScheme url = some rest → ∃ p, url = p ++ rest := by
  intro url
  induction url with
  | nil =>
    intro rest h
    cases h
  | cons c cs ih =>
    intro rest h
    rw [findScheme] at h
    by_cases hs : c = ':' ∧ cs.take 2 = ['/', '/']
    · rw [if_pos hs] at h
      injection h with h1
      subst h1
      refine ⟨c :: cs.take 2, ?_⟩
      rw [List.cons_append, List.take_append_drop]
    · rw [if_neg hs] at h
      obtain ⟨p, hp⟩ := ih rest h
      exact ⟨c :: p, by rw [hp]; rfl⟩

theorem urlHost_sub (url : List Char) : SubOf (urlHost url) url := by
  rw [urlHost]
  cases hf : findScheme url with
  | none =>
    simp only [Option.getD_none]
    obtain ⟨t, ht⟩ := takeWhile_sub (fun c => ¬(c = '/' ∨ c = ':')) url
    exact ⟨[], t, by simpa using ht⟩
  | some rest =>
    simp only [Option.getD_some]
    obtain ⟨p, hp⟩ := findScheme_suffix url rest hf
    obtain ⟨t, ht⟩ := takeWhile_sub (fun c => ¬(c = '/' ∨ c = ':')) rest
    refine ⟨p, t, ?_⟩
    rw [hp, List.append_assoc, ← ht]

/-! Auxiliary facts for unmatched markers. -/

theorem extractAux_no_close : ∀ (l : List Char) (pos : Nat) (st : Option (Nat × List Char)),
    '}' ∉ l → extractAux l pos st = [] := by
  intro l
  induction l with
  | nil =>
    intro pos st _
    cases st with
    | none => rfl
    | some st => rfl
  | cons c rest ih =>
    intro pos st hm
    have hc : ¬c = '}' := by
      intro h
      exact hm (by rw [h]; exact List.mem_cons_self _ _)
    have hrest : '}' ∉ rest := fun h => hm (List.mem_cons_of_mem _ h)
    cases st with
    | none =>
      by_cases h2 : c = '{'
      · simp only [extractAux, if_pos h2]
        exact ih (pos + 1) (some (pos, [])) hrest
      · simp only [extractAux, if_neg h2]
        exact ih (pos + 1) none hrest
    | some st =>
      simp only [extractAux, if_neg hc]
      exact ih (pos + 1) (some (st.1, c :: st.2)) hrest

theorem extractAux_no_open : ∀ (l : List Char) (pos : Nat),
    '{' ∉ l → extractAux l pos none = [] := by
  intro l
  induction l with
  | nil => intro pos _; rfl
  | cons c rest ih =>
    intro pos hm
    have hc : ¬c = '{' := by
      intro h
      exact hm (by rw [h]; exact List.mem_cons_self _ _)
    have hrest : '{' ∉ rest := fun h => hm (List.mem_cons_of_mem _ h)
    simp only [extractAux, if_neg hc]
    exact ih (pos + 1) hrest

/-! The claims. -/

/-- Claim C1 counterexample: the translation of the single span of
`"\x7bgood\x7d"` succeeds but is the empty string; the claim predicts the span
content replaced by its translation (output `['\x7b', '\x7d']`), but
`translate_pgn` keeps the original comment, because Python's truthiness test
`if translated_text and ...` skips the splice for an empty translation. -/
theorem c1_cex :
    translate_pgn (fun _ _ => some []) ("{good}").toList = ("{good}").toList ∧
      renderWith (fun _ _ => []) ("{good}").toList 0 0
        (extract_comments (("{good}").toList)) = ['{', '}'] ∧
      ("{good}").toList ≠ ['{', '}'] := by
  refine ⟨by decide, by decide, by decide⟩

/-- Claim C1 (amended): for every input text, when the translation of every
located span succeeds and every translation is non-empty, `translate_pgn`
produces exactly the reconstruction in which each span's content is replaced
by its translation, re-emitted between the same brace markers, with all
characters outside the spans unchanged.  (Amendment forced by the
counterexample: a successful empty-string translation is skipped and that
span keeps its original content.) -/
theorem c1_success_render (tr : Nat → List Char → List Char) (s : List Char)
    (hne : ∀ i t, tr i t ≠ []) :
    translate_pgn (fun i t => some (tr i t)) s =
      renderWith tr s 0 0 (extract_comments s) := by
  rw [translate_pgn_render]
  apply renderWith_congr
  intro i t
  simp only [effText]
  by_cases h : tr i t = t
  · simp [h]
  · simp [hne i t, h]

/-- Claim C1 witness: a concrete run of the amended theorem. -/
theorem c1_success_render_witness :
    translate_pgn (fun _ t => some ('X' :: t.reverse)) ("a {b} c").toList =
      renderWith (fun _ t => 'X' :: t.reverse) ("a {b} c").toList 0 0
        (extract_comments (("a {b} c").toList)) :=
  c1_success_render (fun _ t => 'X' :: t.reverse) (("a {b} c").toList)
    (fun _ _ => List.cons_ne_nil _ _)

/-- Claim C2: on input `"1.e4 \x7bgood\x7d 1...e5 \x7bbad\x7d"` with a translation
service that reverses each comment string, `translate_pgn` returns exactly
`"1.e4 \x7bdoog\x7d 1...e5 \x7bdab\x7d"`: both spans are processed back to front and
both offsets stay valid. -/
theorem c2_reverse_example :
    translate_pgn (fun _ t => some t.reverse) ("1.e4 {good} 1...e5 {bad}").toList =
      ("1.e4 {doog} 1...e5 {dab}").toList := by
  decide

/-- Claim C3 counterexample: a 200 response whose parsed object body maps
`"translatedText"` to JSON null makes `translate_text` return `None`, and a
200 response whose body parses to a non-object makes an `AttributeError`
escape to the caller — refuting "never returns null" and "never lets an
exception escape". -/
theorem c3_cex :
    translate_text (NetOutcome.resp ⟨200, some (ParsedBody.jdict (some JsonField.jnull))⟩)
        ("hi").toList ("en").toList ("es").toList = PyOut.val none ∧
      translate_text (NetOutcome.resp ⟨200, some ParsedBody.jother⟩)
        ("hi").toList ("en").toList ("es").toList = PyOut.raised := by
  exact ⟨rfl, rfl⟩

/-- Claim C3 (amended): on every failure the claim enumerates — non-success
HTTP status, connection/timeout error, or a body that fails JSON decoding —
`translate_text` returns the original input text unchanged; and on a 200
object body it returns the `"translatedText"` string, or the original text
when the key is absent.  (The original claim's "never null / never an
exception" parts fail on a 200 body with a null entry or a non-object body,
per the counterexample.) -/
theorem c3_failure_keeps_text :
    (∀ (net : NetOutcome) (text src tgt : List Char), isFailure net →
        translate_text net text src tgt = PyOut.val (some text)) ∧
      (∀ text src tgt r : List Char,
        translate_text
          (NetOutcome.resp ⟨200, some (ParsedBody.jdict (some (JsonField.jstr r)))⟩)
          text src tgt = PyOut.val (some r)) ∧
      (∀ text src tgt : List Char,
        translate_text (NetOutcome.resp ⟨200, some (ParsedBody.jdict none)⟩)
          text src tgt = PyOut.val (some text)) := by
  refine ⟨?_, fun text src tgt r => rfl, fun text src tgt => rfl⟩
  intro net text src tgt h
  cases net with
  | netError => rfl
  | resp r =>
    cases h with
    | inl hs => simp [translate_text, hs]
    | inr hb =>
      by_cases hst : r.status = 200
      · simp [translate_text, hst, hb]
      · simp [translate_text, hst]

/-- Claim C3 witness: a concrete failing response keeps the original text. -/
theorem c3_failure_keeps_text_witness :
    translate_text (NetOutcome.resp ⟨500, some (ParsedBody.jdict none)⟩) ("hi").toList
        ("en").toList ("es").toList = PyOut.val (some (("hi").toList)) :=
  c3_failure_keeps_text.1 (NetOutcome.resp ⟨500, some (ParsedBody.jdict none)⟩)
    (("hi").toList) (("en").toList) (("es").toList) (Or.inl (by decide))

/-- Claim C4 counterexample: on the two-span input `"\x7bp\x7d \x7bq\x7d"`, the first
call issued (span 1, since iteration is over `reversed(comments)`) raises an
uncaught `AttributeError` — the outcome a 200 response with a non-object JSON
body produces — so `translate_pgn` aborts with the exception and only one
request, not two, is issued.  This refutes "exactly N translation requests
... regardless of whether each request succeeds or fails". -/
theorem c4_cex :
    (extract_comments (("{p} {q}").toList)).length = 2 ∧
      translate_pgnE_requests (fun i t => if i = 1 then PyOut.raised else PyOut.val (some t))
          (("{p} {q}").toList) = [("q").toList] ∧
      (translate_pgnE_requests (fun i t => if i = 1 then PyOut.raised else PyOut.val (some t))
          (("{p} {q}").toList)).length ≠ (extract_comments (("{p} {q}").toList)).length ∧
      translate_pgnE (fun i t => if i = 1 then PyOut.raised else PyOut.val (some t))
          (("{p} {q}").toList) = none := by
  refine ⟨by decide, by decide, by decide, by decide⟩

/-- Claim C4 (amended): `translate_pgn` issues one `translate_text` call per
located span, processed back to front, until a call raises: when no call
raises an uncaught exception, exactly N requests are issued for an input with
N located spans — regardless of each call's returned outcome (success,
kept-original failure, or `None`) — and the trace is the reversed list of
span texts; in general at most N requests are issued, since a raising call
propagates out of the loop and the remaining spans' requests never happen. -/
theorem c4_request_count_amended :
    (∀ (tr : Nat → List Char → PyOut) (s : List Char),
        (∀ i t, tr i t ≠ PyOut.raised) →
          (translate_pgnE_requests tr s).length = (extract_comments s).length ∧
            translate_pgnE_requests tr s =
              (extract_comments s).reverse.map (fun x => x.1)) ∧
      (∀ (tr : Nat → List Char → PyOut) (s : List Char),
        (translate_pgnE_requests tr s).length ≤ (extract_comments s).length) := by
  constructor
  · intro tr s hnr
    unfold translate_pgnE_requests
    by_cases h : extract_comments s = []
    · simp [h]
    · simp only [h, if_neg, ite_false]
      rw [(transLoopE_no_raise tr hnr s (extract_comments s) 0).2]
      simp
  · intro tr s
    unfold translate_pgnE_requests
    by_cases h : extract_comments s = []
    · simp [h]
    · simp only [h, if_neg, ite_false]
      exact transLoopE_requests_le tr s (extract_comments s) 0

/-- Claim C4 witness: a concrete never-raising run issues exactly two
requests on the two-span input. -/
theorem c4_request_count_amended_witness :
    (translate_pgnE_requests (fun _ t => PyOut.val (some t)) (("{p} {q}").toList)).length =
        (extract_comments (("{p} {q}").toList)).length ∧
      translate_pgnE_requests (fun _ t => PyOut.val (some t)) (("{p} {q}").toList) =
        (extract_comments (("{p} {q}").toList)).reverse.map (fun x => x.1) :=
  c4_request_count_amended.1 (fun _ t => PyOut.val (some t)) (("{p} {q}").toList)
    (fun _ _ h => PyOut.noConfusion h)

/-- Claim C5: round-trip stability — whenever the oracle returns every text
unchanged, `translate_pgn` returns the input exactly; and skipping the splice
for a no-op translation is behaviorally identical to performing it:
`translate_pgn` agrees with the never-skip variant on every input and
oracle. -/
theorem c5_roundtrip :
    (∀ (tr : Nat → List Char → Option (List Char)) (s : List Char),
        (∀ i t, tr i t = some t) → translate_pgn tr s = s) ∧
      (∀ (tr : Nat → List Char → Option (List Char)) (s : List Char),
        translate_pgn tr s = translate_pgn_noskip tr s) := by
  constructor
  · intro tr s hid
    rw [translate_pgn_render]
    have h1 : ∀ i t, effText tr i t = t := by
      intro i t
      simp [effText, hid i t]
    rw [renderWith_congr (effText tr) (fun _ t => t) s h1]
    rw [renderWith_orig s (extract_comments s) 0 0 (extract_comments_ok s)]
    rw [List.drop_zero]
  · intro tr s
    rw [translate_pgn_render, translate_pgn_noskip_render]

/-- Claim C5 witness: a concrete identity-translation run. -/
theorem c5_roundtrip_witness :
    translate_pgn (fun _ t => some t) ("1.e4 {good} e5").toList =
      ("1.e4 {good} e5").toList :=
  c5_roundtrip.1 (fun _ t => some t) (("1.e4 {good} e5").toList) (fun _ _ => rfl)

/-- Claim C6 counterexample: on `"\x7ba\x7d \x7bb\x7d"`, span 1's call fails (yields its
own text) and span 0's call succeeds with the empty string; the claim
predicts that only span 1 retains its original while span 0 carries its
translation, but the actual output retains both originals. -/
theorem c6_cex :
    translate_pgn (fun i t => if i = 1 then some t else some []) ("{a} {b}").toList =
      ("{a} {b}").toList ∧
      renderWith (fun i t => if i = 1 then t else []) ("{a} {b}").toList 0 0
          (extract_comments (("{a} {b}").toList)) ≠ ("{a} {b}").toList := by
  refine ⟨by decide, by decide⟩

/-- Claim C6 (amended): if the call for span k fails — `translate_text`
yields that span's original text — while the call for every other span
succeeds with a non-empty translation, then the output retains exactly span
k's original text and re-emits every other span with its translated text.
(Amendment forced by the counterexample: the other spans' translations must
be non-empty, else they too are retained as originals.) -/
theorem c6_single_failure (s : List Char) (f : Nat → List Char → List Char) (k : Nat)
    (hk : ∀ t, f k t = t) (hne : ∀ i t, i ≠ k → f i t ≠ []) :
    translate_pgn (fun i t => some (f i t)) s =
      renderWith f s 0 0 (extract_comments s) := by
  rw [translate_pgn_render]
  apply renderWith_congr
  intro i t
  simp only [effText]
  by_cases hik : i = k
  · subst hik
    simp [hk t]
  · by_cases h : f i t = t
    · simp [h]
    · simp [hne i t hik, h]

/-- Claim C6 witness: span 1 of a two-span input fails, span 0 succeeds. -/
theorem c6_single_failure_witness :
    translate_pgn (fun i t => some (if i = 1 then t else 'X' :: t.reverse))
        ("{a} {b}").toList =
      renderWith (fun i t => if i = 1 then t else 'X' :: t.reverse) ("{a} {b}").toList 0 0
        (extract_comments (("{a} {b}").toList)) :=
  c6_single_failure (("{a} {b}").toList) (fun i t => if i = 1 then t else 'X' :: t.reverse) 1
    (fun t => if_pos rfl)
    (fun i t hik => by
      show (if i = 1 then t else 'X' :: t.reverse) ≠ []
      rw [if_neg hik]
      exact List.cons_ne_nil _ _)

/-- Claim C7: an open comment marker with no matching closing marker is
simply not matched — `extract_comments` is total (no error) and yields no
span for it: `"1.e4 \x7bopen"` yields zero spans, any text without a closing
marker yields zero spans, and for any text with zero comment markers
`translate_pgn` returns the text unchanged. -/
theorem c7_unmatched_open :
    extract_comments ['1', '.', 'e', '4', ' ', '{', 'o', 'p', 'e', 'n'] = [] ∧
      (∀ s : List Char, '}' ∉ s → extract_comments s = []) ∧
      (∀ (tr : Nat → List Char → Option (List Char)) (s : List Char),
        '{' ∉ s ∧ '}' ∉ s → translate_pgn tr s = s) := by
  refine ⟨by decide, ?_, ?_⟩
  · intro s h
    exact extractAux_no_close s 0 none h
  · intro tr s h
    have he : extract_comments s = [] := extractAux_no_open s 0 h.1
    simp [translate_pgn, he]

/-- Claim C7 witness: a concrete marker-free text passes through unchanged. -/
theorem c7_unmatched_open_witness :
    translate_pgn (fun _ _ => some ['z']) ("1.e4 e5").toList = ("1.e4 e5").toList :=
  c7_unmatched_open.2.2 (fun _ _ => some ['z']) (("1.e4 e5").toList) (by decide)

/-- Claim C8 counterexample: the configured URL
`"https://example.com/localhost"` has host `"example.com"`, which is not a
loopback address, yet the translator is in offline mode — `_is_offline_mode`
tests `'localhost' in url`, a substring check over the whole URL, not a host
check. -/
theorem c8_cex :
    translatorOffline ("https://example.com/localhost").toList = true ∧
      ¬isLoopbackHost (urlHost (("https://example.com/localhost").toList)) := by
  refine ⟨by decide, ?_⟩
  intro h
  cases h with
  | inl h1 => exact absurd h1 (by decide)
  | inr h1 => exact absurd h1 (by decide)

/-- Claim C8 (amended): the translator is in offline mode iff `"localhost"`
or `"127.0.0.1"` occurs as a substring anywhere in the stored
(trailing-slash-stripped) API URL; in particular every URL whose host is one
of these loopback names is in offline mode — the converse direction of the
original host-based claim is what fails. -/
theorem c8_offline_substring :
    (∀ url : List Char, translatorOffline url = true ↔
        (SubOf lhostStr (rstripSlash url) ∨ SubOf lipStr (rstripSlash url))) ∧
      (∀ url : List Char, isLoopbackHost (urlHost (rstripSlash url)) →
        translatorOffline url = true) := by
  have hiff : ∀ url : List Char, translatorOffline url = true ↔
      (SubOf lhostStr (rstripSlash url) ∨ SubOf lipStr (rstripSlash url)) := by
    intro url
    rw [translatorOffline, is_offline_mode, Bool.or_eq_true,
      containsSub_iff, containsSub_iff]
  refine ⟨hiff, ?_⟩
  intro url h
  rw [hiff url]
  cases h with
  | inl h1 => exact Or.inl (h1 ▸ urlHost_sub (rstripSlash url))
  | inr h1 => exact Or.inr (h1 ▸ urlHost_sub (rstripSlash url))

/-- Claim C8 witness: a URL with loopback host is detected as offline. -/
theorem c8_offline_substring_witness :
    translatorOffline ("http://localhost:5000").toList = true :=
  c8_offline_substring.2 (("http://localhost:5000").toList) (Or.inl (by decide))

/-- Claim C9: every span `(t, a, b)` located by `extract_comments` has valid
offsets into the original input: the slice of the input from `a` to `b` is
exactly `'\x7b' :: t ++ ['\x7d']`, so `b = a + length t + 2` and `b ≤ length s`.
(Non-mutation of the input is inherent to the embedding: the function only
reads its argument, as Python string immutability also guarantees.) -/
theorem c9_span_offsets (s t : List Char) (a b : Nat)
    (h : (t, a, b) ∈ extract_comments s) :
    b = a + t.length + 2 ∧ b ≤ s.length ∧
      (s.drop a).take (b - a) = '{' :: (t ++ ['}']) := by
  have hv := spansOK_valid s (extract_comments s) 0 (extract_comments_ok s) (t, a, b) h
  exact ⟨hv.1, hv.2.1, hv.2.2.1⟩

/-- Claim C9 witness: the span of `"x\x7bhi\x7d"`. -/
theorem c9_span_offsets_witness :
    (5 : Nat) = 1 + (("hi").toList).length + 2 ∧ (5 : Nat) ≤ (("x{hi}").toList).length ∧
      ((("x{hi}").toList).drop 1).take (5 - 1) = '{' :: ((("hi").toList) ++ ['}']) :=
  c9_span_offsets (("x{hi}").toList) (("hi").toList) 1 5 (by decide)

/-- Claim C10: every located span has a non-empty body containing no closing
brace, the spans come in strictly increasing pairwise disjoint offset order,
and an empty comment `\x7b\x7d` is never located: `"1.e4 \x7b\x7d e5"` yields zero spans,
no translation request is issued for it, and it passes through
`translate_pgn` unchanged. -/
theorem c10_span_invariants :
    (∀ (s : List Char) (x : List Char × Nat × Nat), x ∈ extract_comments s →
        x.1 ≠ [] ∧ '}' ∉ x.1 ∧ x.2.1 < x.2.2) ∧
      (∀ s : List Char, List.Chain'
        (fun x y : List Char × Nat × Nat => x.2.2 ≤ y.2.1) (extract_comments s)) ∧
      extract_comments ['1', '.', 'e', '4', ' ', '{', '}', ' ', 'e', '5'] = [] ∧
      (∀ tr : Nat → List Char → Option (List Char),
        translate_pgn tr ['1', '.', 'e', '4', ' ', '{', '}', ' ', 'e', '5'] =
            ['1', '.', 'e', '4', ' ', '{', '}', ' ', 'e', '5'] ∧
          translate_pgn_requests tr ['1', '.', 'e', '4', ' ', '{', '}', ' ', 'e', '5'] = []) := by
  refine ⟨?_, ?_, by decide, ?_⟩
  · intro s x h
    have hv := spansOK_valid s (extract_comments s) 0 (extract_comments_ok s) x h
    have h1 := hv.1
    exact ⟨hv.2.2.2.1, hv.2.2.2.2, by omega⟩
  · intro s
    exact spansOK_chain s (extract_comments s) 0 (extract_comments_ok s)
  · intro tr
    have he : extract_comments ['1', '.', 'e', '4', ' ', '{', '}', ' ', 'e', '5'] = [] := by
      decide
    constructor
    · simp [translate_pgn, he]
    · simp [translate_pgn_requests, he]

/-- Claim C10 witness: the span of `"a\x7bb\x7d"` is non-empty, brace-free and has
increasing offsets. -/
theorem c10_span_invariants_witness :
    (("b").toList) ≠ [] ∧ '}' ∉ (("b").toList) ∧ (1 : Nat) < 4 :=
  c10_span_invariants.1 (("a{b}").toList) ((("b").toList), 1, 4) (by decide)
